import Mathlib

/-!
Shallow embedding of the `csvdb` Go package (db.go, utils.go, rows.go,
options) and proofs about its specified behaviour.

Modelling conventions:
* Path strings and file names are lists of characters (`Str`); Go's
  `path.Clean` / `path.Join` are embedded lexically (`clean`, `pathJoin`).
* File contents are modelled at row granularity: one CSV record per line
  (`Row := List String`); the on-disk row codec details are out of scope.
* The store's files are an association list from full path to rows (`FS`);
  directory listings used by the background jobs are lists of
  (name, modification time) entries (`DirM`), with times as integers and
  Go's zero `time.Time` sitting at `0`.
* Fallible operations return `Except GoErr` / `Option GoErr`.
-/

namespace Csvdb

/-- A character string, modelled as a list of characters. -/
abbrev Str := List Char

/-- The error values the package can surface, plus the classes of
foreign errors that the code distinguishes (`os.IsNotExist`, `io.EOF`,
anything else). -/
inductive GoErr where
  | entryNotFound
  | backendNotSet
  | exportActive
  | purgeActive
  | fsNotExist
  | ioEOF
  | otherErr
  deriving DecidableEq, Repr

/-! ### Lexical path model: Go `path.Clean` and `path.Join` -/

/-- Split a path string at every `'/'` (`acc` holds the current component,
reversed). -/
def splitAux : List Char → List Char → List (List Char)
  | [], acc => [acc.reverse]
  | c :: cs, acc => if c = '/' then acc.reverse :: splitAux cs [] else splitAux cs (c :: acc)

/-- Split a path string at every `'/'`. -/
def splitOnSlash (s : Str) : List Str := splitAux s []

/-- One step of `path.Clean`'s component processing: `out` is the stack of
already-emitted components, most recent first. Empty and `"."` components
are dropped; `".."` pops a poppable component, is dropped at the root, and
is kept when nothing can be popped in a relative path. -/
def cleanStep (rooted : Bool) (out : List Str) (p : Str) : List Str :=
  if p = [] ∨ p = ['.'] then out
  else if p = ['.', '.'] then
    if out = [] then (if rooted then [] else [p])
    else if out.headI = ['.', '.'] then p :: out else out.tail
  else p :: out

/-- The cleaned component list of a path. -/
def cleanParts (rooted : Bool) (ps : List Str) : List Str :=
  (ps.foldl (cleanStep rooted) []).reverse

/-- Join components with `'/'` (Go `strings.Join(parts, "/")`). -/
def joinSlash : List Str → Str
  | [] => []
  | [p] => p
  | p :: q :: ps => p ++ '/' :: joinSlash (q :: ps)

/-- Go `path.Clean`, embedded lexically: the cleaned components joined by
`'/'`, with a leading `'/'` when the input is rooted; an empty result is
`"/"` (rooted) or `"."`. -/
def clean (s : Str) : Str :=
  match cleanParts (decide (s.head? = some '/')) (splitOnSlash s) with
  | [] => if decide (s.head? = some '/') then ['/'] else ['.']
  | ps => (if decide (s.head? = some '/') then ['/'] else []) ++ joinSlash ps

/-- Go `path.Join` for two elements: empty elements are skipped, the rest
joined with `'/'` and cleaned; all-empty input yields the empty path. -/
def pathJoin (a b : Str) : Str :=
  match a with
  | [] =>
    match b with
    | [] => []
    | _ => clean b
  | _ => clean (a ++ '/' :: b)

/-! ### Row-level filesystem model and the Entry contract -/

/-- One CSV record (one line of a local file). -/
abbrev Row := List String

/-- The local store directory's regular files, keyed by full path, each
holding its rows. -/
abbrev FS := List (Str × List Row)

/-- Look a path up in the filesystem. -/
def lookupFS : FS → Str → Option (List Row)
  | [], _ => none
  | (q, r) :: rest, p => if q = p then some r else lookupFS rest p

/-- Create or overwrite the file at `p` with rows `r`. -/
def setFS : FS → Str → List Row → FS
  | [], p, r => [(p, r)]
  | (q, s) :: rest, p, r => if q = p then (p, r) :: rest else (q, s) :: setFS rest p r

/-- Remove the file at `p` (`os.Remove` on an existing path). -/
def removeFS : FS → Str → FS
  | [], _ => []
  | (q, s) :: rest, p => if q = p then removeFS rest p else (q, s) :: removeFS rest p

/-- The caller-supplied `Entry` contract, reduced to the results of its two
methods: `Keys()` (header cells) and `Values()` (record cells). -/
structure GoEntry where
  keys : List String
  values : List String
  deriving DecidableEq, Repr

/-- The outcome of one `Backend.Import` call, as the code classifies it:
success (having streamed `rows` through the supplied file handle), an error
satisfying `os.IsNotExist`, the package's own `ErrEntryNotFound`, or any
other error (modelled as writing nothing). -/
inductive ImportResult where
  | ok (rows : List Row)
  | errNotExist
  | errEntryNotFound
  | errOther
  deriving Repr

/-- A backend, reduced to the behaviour of `Import` per requested name. -/
abbrev BackendM := Str → ImportResult

/-- The store configuration fields the file-naming code consumes. -/
structure OptionsM where
  dir : Str
  name : Str
  deriving DecidableEq, Repr

/-- The `".csv"` suffix. -/
def csvSfx : Str := ['.', 'c', 's', 'v']

/-- Model of `fmt.Sprintf("%s.%s.csv", d.o.Name, key)`: the base name of a key's
local file. -/
def entryName (o : OptionsM) (key : Str) : Str :=
  o.name ++ '.' :: (key ++ csvSfx)

/-- Model of `DB.getFullPath`: `path.Join(o.Dir, o.Name)`. -/
def getFullPath (o : OptionsM) : Str := pathJoin o.dir o.name

/-- Model of `DB.getFilename`: the (base name, full path) pair of a key's file. -/
def getFilename (o : OptionsM) (key : Str) : Str × Str :=
  (entryName o key, pathJoin (getFullPath o) (entryName o key))

/-- The full path of a key's local file. -/
def fnameOf (o : OptionsM) (key : Str) : Str := (getFilename o key).2

/-! ### The write path -/

/-- Model of `DB.writeEntries` (with `DB.writeHeader` inlined): seek to the end; if
the file was empty, write a header row from the first entry's `Keys()`;
then one `Values()` row per entry, in input order. -/
def writeEntries (rows : List Row) (es : List GoEntry) : List Row :=
  match es with
  | [] => rows
  | e :: _ => rows ++ (if rows.isEmpty then [e.keys] else []) ++ es.map (fun x => x.values)

/-- Model of `DB.Append`: no-op on an empty entry list, otherwise open-or-create the
key's file and append via `writeEntries`. -/
def Append (o : OptionsM) (fs : FS) (key : Str) (es : List GoEntry) : FS :=
  match es with
  | [] => fs
  | _ :: _ =>
    let fname := fnameOf o key
    let rows := (lookupFS fs fname).getD []
    setFS fs fname (writeEntries rows es)

/-! ### The read path -/

/-- Model of `DB.attemptDownload`. With no backend: `ErrBackendNotSet`, no file
created. Otherwise `os.Create` makes an empty file, then `Import` runs:
on success the open handle is returned with its offset at the end of the
written data (so a subsequent copy from the handle reads nothing); on an
`os.IsNotExist` error the empty file is closed and removed and the import
error itself is returned; on `ErrEntryNotFound` or any other error the
function returns at once, leaving the created file in place. The
`Except.ok` payload is the rows readable from the returned handle's
current offset. -/
def attemptDownload (b : Option BackendM) (fs : FS) (nm fname : Str) :
    FS × Except GoErr (List Row) :=
  match b with
  | none => (fs, .error .backendNotSet)
  | some imp =>
    let fs1 := setFS fs fname []
    match imp nm with
    | .ok rows => (setFS fs1 fname rows, .ok [])
    | .errEntryNotFound => (fs1, .error .entryNotFound)
    | .errOther => (fs1, .error .otherErr)
    | .errNotExist => (removeFS fs1 fname, .error .fsNotExist)

/-- Model of `DB.getOrDownload`: open the local file if it exists (handle at offset
0, so all rows are readable), otherwise attempt a download. -/
def getOrDownload (b : Option BackendM) (o : OptionsM) (fs : FS) (key : Str) :
    FS × Except GoErr (List Row) :=
  match lookupFS fs (fnameOf o key) with
  | some rows => (fs, .ok rows)
  | none => attemptDownload b fs (entryName o key) (fnameOf o key)

/-- Model of `DB.Get`: resolve the key via `getOrDownload` and copy the handle's
remaining bytes to the destination (the `Except.ok` payload). -/
def Get (b : Option BackendM) (o : OptionsM) (fs : FS) (key : Str) :
    FS × Except GoErr (List Row) :=
  getOrDownload b o fs key

/-- Model of `DB.appendFile`: resolve one key for the merge; `ErrEntryNotFound` and
`ErrBackendNotSet` are swallowed (skip, `ok = false`); any other error
propagates. When the header must be skipped, the first readable line is
consumed (reading a line from an exhausted handle yields `io.EOF`, which
propagates). The payload is (`ok` flag, rows copied to the writer). -/
def appendFile (b : Option BackendM) (o : OptionsM) (fs : FS)
    (writeHeader : Bool) (key : Str) : FS × Except GoErr (Bool × List Row) :=
  match getOrDownload b o fs key with
  | (fs', .error GoErr.entryNotFound) => (fs', .ok (false, []))
  | (fs', .error GoErr.backendNotSet) => (fs', .ok (false, []))
  | (fs', .error e) => (fs', .error e)
  | (fs', .ok rows) =>
    if writeHeader then (fs', .ok (true, rows))
    else
      match rows with
      | [] => (fs', .error .ioEOF)
      | _ :: t => (fs', .ok (true, t))

/-- Model of `DB.getMergedFile`: fold `appendFile` over the keys, writing the header
only for the first key that successfully resolves. The payload is the
concatenation of everything written to the destination. -/
def getMergedFile (b : Option BackendM) (o : OptionsM) :
    FS → Bool → List Str → FS × Except GoErr (List Row)
  | fs, _, [] => (fs, .ok [])
  | fs, headerWritten, k :: ks =>
    match appendFile b o fs (!headerWritten) k with
    | (fs', .error e) => (fs', .error e)
    | (fs', .ok (okFlag, out)) =>
      match getMergedFile b o fs' (headerWritten || okFlag) ks with
      | (fs2, .error e) => (fs2, .error e)
      | (fs2, .ok rest) => (fs2, .ok (out ++ rest))

/-- Model of `DB.GetMerged`. -/
def GetMerged (b : Option BackendM) (o : OptionsM) (fs : FS) (keys : List Str) :
    FS × Except GoErr (List Row) :=
  getMergedFile b o fs false keys

/-- Model of `os.Remove`: fails with a not-exist error when the path is absent. -/
def osRemove (fs : FS) (p : Str) : Except GoErr FS :=
  match lookupFS fs p with
  | none => .error .fsNotExist
  | some _ => .ok (removeFS fs p)

/-- Model of `DB.Delete`: `os.Remove` of the key's resolved file path. -/
def Delete (o : OptionsM) (fs : FS) (key : Str) : Except GoErr FS :=
  osRemove fs (fnameOf o key)

/-! ### Directory-listing model for the background jobs -/

/-- One directory entry: base name and modification time. -/
structure DirEnt where
  name : Str
  mtime : Int
  deriving DecidableEq, Repr

/-- The store directory's direct children, in walk order. -/
abbrev DirM := List DirEnt

/-- Model of `filepath.Ext` on a base name: the suffix starting at the final dot,
empty when there is no dot. -/
def pathExt (n : Str) : Str :=
  if '.' ∈ n then '.' :: (n.reverse.takeWhile (fun c => decide (c ≠ '.'))).reverse
  else []

/-- The `.csv` filter applied by `DB.forEach`. -/
def isCsv (n : Str) : Bool := decide (pathExt n = csvSfx)

/-- Find a directory entry by name (`os.Stat` / `os.Open` by base name). -/
def lookupDir : DirM → Str → Option DirEnt
  | [], _ => none
  | e :: rest, n => if e.name = n then some e else lookupDir rest n

/-- Create or refresh the entry `n`, giving it modification time `t`. -/
def setDir : DirM → Str → Int → DirM
  | [], n, t => [⟨n, t⟩]
  | e :: rest, n, t => if e.name = n then ⟨n, t⟩ :: rest else e :: setDir rest n t

/-- The export-marker name of a local file: `<name>.exported`. -/
def markerName (n : Str) : Str :=
  n ++ ('.' :: ('e' :: 'x' :: 'p' :: 'o' :: 'r' :: 't' :: 'e' :: 'd' :: []))

/-- Model of `DB.getLastExported`: the marker's modification time, or the zero time
(`0`) when the marker is absent. -/
def getLastExported (dir : DirM) (n : Str) : Int :=
  match lookupDir dir (markerName n) with
  | some e => e.mtime
  | none => 0

/-- Model of `DB.getExportable`: every `.csv` entry whose last-export instant is not
after its modification time. -/
def getExportable (dir : DirM) : List Str :=
  (dir.filter (fun e => isCsv e.name && !(decide (e.mtime < getLastExported dir e.name)))).map
    (fun e => e.name)

/-- An expiry predicate: base name and modification time to "expired". -/
abbrev ExpiryM := Str → Int → Bool

/-- Model of `isExpiredBasic`: a zero TTL never expires; otherwise expired when
`now - mtime >= ttl`. -/
def isExpiredBasic (ttl now mtime : Int) : Bool :=
  if ttl = 0 then false else decide (ttl ≤ now - mtime)

/-- Model of `basicExpiryMonitor`: the default expiry predicate built from the
configured `FileTTL` (with `time.Now()` frozen at `now`). -/
def basicExpiryMonitor (ttl now : Int) : ExpiryM :=
  fun _ mtime => isExpiredBasic ttl now mtime

/-- Model of `DB.getExpired`: every `.csv` entry the configured predicate classifies
as expired. -/
def getExpired (mon : ExpiryM) (dir : DirM) : List Str :=
  (dir.filter (fun e => isCsv e.name && mon e.name e.mtime)).map (fun e => e.name)

/-- Model of `DB.removeAll`: delete the listed names from the directory. -/
def removeAll (dir : DirM) (names : List Str) : DirM :=
  dir.filter (fun e => !(decide (e.name ∈ names)))

/-- The state the two background jobs touch: the two single-flight locks,
the directory listing, and the log of names pushed to the backend. -/
structure JobSt where
  pmuxHeld : Bool
  emuxHeld : Bool
  dir : DirM
  uploads : List Str
  deriving DecidableEq, Repr

/-- Model of `DB.purge`: try-acquire the purge lock (fail fast with
`ErrPurgeIsActive`), then remove every expired file. -/
def purge (mon : ExpiryM) (st : JobSt) : Option GoErr × JobSt :=
  if st.pmuxHeld then (some .purgeActive, st)
  else (none, { st with dir := removeAll st.dir (getExpired mon st.dir) })

/-- Model of `DB.setLastExported`: create or refresh the export marker. -/
def setLastExported (dir : DirM) (now : Int) (n : Str) : DirM :=
  setDir dir (markerName n) now

/-- Model of `DB.export` of one file: needs a backend and an openable file; on
success the bytes are pushed (logged in `uploads`) and the marker is
refreshed. -/
def exportOne (hasBackend : Bool) (now : Int) (st : JobSt) (n : Str) :
    Except GoErr JobSt :=
  if !hasBackend then .error .backendNotSet
  else
    match lookupDir st.dir n with
    | none => .error .fsNotExist
    | some _ =>
      .ok { st with uploads := st.uploads ++ [n], dir := setLastExported st.dir now n }

/-- Model of `DB.exportAll`: export each pending file in order, stopping at the
first error (already-refreshed markers are kept). -/
def exportAll (hasBackend : Bool) (now : Int) : JobSt → List Str → Option GoErr × JobSt
  | st, [] => (none, st)
  | st, n :: ns =>
    match exportOne hasBackend now st n with
    | .error e => (some e, st)
    | .ok st' => exportAll hasBackend now st' ns

/-- Model of `DB.backup`: try-acquire the export lock (fail fast with
`ErrExportIsActive`), then export everything pending. -/
def backup (hasBackend : Bool) (now : Int) (st : JobSt) : Option GoErr × JobSt :=
  if st.emuxHeld then (some .exportActive, st)
  else exportAll hasBackend now st (getExportable st.dir)

/-! ### The background scheduler loop (`scan` in utils.go) -/

/-- Which `select` case fires on a tick: the `<-ctx.Done()` case or
`default`. -/
inductive SelectPick where
  | doneCase
  | defaultCase
  deriving DecidableEq, Repr

/-- One iteration of `scan`'s loop body, at a ticker firing. The `select`
inspects `ctx.Done()`, but both of its case bodies are empty and neither
returns nor breaks, so control always falls through to `go fn()`. `pick`
resolves the select's nondeterministic choice when the context is
cancelled (both cases ready); when it is not, only `default` is ready.
Returns `true` iff `fn` is dispatched on this tick. -/
def scanTick (cancelled : Bool) (pick : SelectPick) : Bool :=
  match pick, cancelled with
  | SelectPick.doneCase, _ => true
  | SelectPick.defaultCase, _ => true

/-- How many `go fn()` dispatches `scan` issues over the first `ticks`
ticker firings when the context is cancelled from tick `cancelledFrom`
on, with `pick` resolving each tick's select choice. -/
def scanDispatchCount (cancelledFrom : Nat) (ticks : Nat) (pick : Nat → SelectPick) : Nat :=
  ((List.range ticks).filter (fun i => scanTick (decide (cancelledFrom ≤ i)) (pick i))).length

/-! ### Sample inputs used by the concrete witnesses -/

/-- A small sample configuration: directory `"d"`, store name `"N"`. -/
def oS : OptionsM := ⟨['d'], ['N']⟩

/-- A sample entry with header `foo,bar` and values `1,1b`. -/
def eS : GoEntry := ⟨["foo", "bar"], ["1", "1b"]⟩

/-- A backend whose `Import` always reports an `os.IsNotExist` error. -/
def impNotFound : BackendM := fun _ => ImportResult.errNotExist

/-- A backend whose `Import` always returns `ErrEntryNotFound` itself. -/
def impENF : BackendM := fun _ => ImportResult.errEntryNotFound

/-- A sample store content: keys `"a"` and `"b"`, each one header row plus
one data row. -/
def fsS : FS :=
  [(fnameOf oS ['a'], [["h1", "h2"], ["a1", "a2"]]),
   (fnameOf oS ['b'], [["h1", "h2"], ["b1", "b2"]])]

/-- A sample job state with both single-flight locks held. -/
def stS : JobSt := ⟨true, true, [⟨['f', '.', 'c', 's', 'v'], 5⟩], []⟩

/-- A sample directory: `a.csv` last modified at time 0, `b.csv` at 90. -/
def dirS : DirM := [⟨['a', '.', 'c', 's', 'v'], 0⟩, ⟨['b', '.', 'c', 's', 'v'], 90⟩]

/-- A sample job state with both locks free over `dirS`. -/
def stP : JobSt := ⟨false, false, dirS, []⟩

/-- A sample directory for export bookkeeping: `a.csv` (mtime 50) with an
export marker refreshed at 60, and `b.csv` (mtime 70) with no marker. -/
def dirE : DirM :=
  [⟨['a', '.', 'c', 's', 'v'], 50⟩,
   ⟨markerName ['a', '.', 'c', 's', 'v'], 60⟩,
   ⟨['b', '.', 'c', 's', 'v'], 70⟩]

/-! ### Helper lemmas about the path model -/

theorem splitAux_append (xs ys : Str) :
    ∀ acc, splitAux (xs ++ '/' :: ys) acc = splitAux xs acc ++ splitAux ys [] := by
  induction xs with
  | nil => intro acc; simp [splitAux]
  | cons c cs ih =>
    intro acc
    by_cases hc : c = '/' <;> simp [splitAux, hc, ih]

theorem splitAux_no_slash (xs : Str) (h : '/' ∉ xs) :
    ∀ acc, splitAux xs acc = [acc.reverse ++ xs] := by
  induction xs with
  | nil => intro acc; simp [splitAux]
  | cons c cs ih =>
    intro acc
    have hc : ¬ c = '/' := by
      intro hh
      apply h
      rw [hh]
      exact List.mem_cons_self _ _
    have hcs : '/' ∉ cs := fun hm => h (List.mem_cons_of_mem _ hm)
    simp [splitAux, hc, ih hcs]

theorem cleanStep_ne_nil (rooted : Bool) (out : List Str) (p : Str)
    (h : ∀ q ∈ out, q ≠ []) : ∀ q ∈ cleanStep rooted out p, q ≠ [] := by
  intro q hq
  unfold cleanStep at hq
  by_cases h1 : p = [] ∨ p = ['.']
  · rw [if_pos h1] at hq
    exact h q hq
  · rw [if_neg h1] at hq
    by_cases h2 : p = ['.', '.']
    · rw [if_pos h2] at hq
      by_cases h5 : out = []
      · rw [if_pos h5] at hq
        cases rooted with
        | true => simp at hq
        | false =>
          simp at hq
          rw [hq, h2]
          simp
      · rw [if_neg h5] at hq
        by_cases h6 : out.headI = ['.', '.']
        · rw [if_pos h6] at hq
          rcases List.mem_cons.1 hq with rfl | hq'
          · rw [h2]; simp
          · exact h q hq'
        · rw [if_neg h6] at hq
          exact h q (List.mem_of_mem_tail hq)
    · rw [if_neg h2] at hq
      rcases List.mem_cons.1 hq with rfl | hq'
      · exact fun hnil => h1 (Or.inl hnil)
      · exact h q hq'

theorem foldl_cleanStep_ne_nil (rooted : Bool) :
    ∀ (ps : List Str) (out : List Str), (∀ q ∈ out, q ≠ []) →
      ∀ q ∈ List.foldl (cleanStep rooted) out ps, q ≠ [] := by
  intro ps
  induction ps with
  | nil => intro out h; simpa using h
  | cons p ps ih =>
    intro out h
    rw [List.foldl_cons]
    exact ih _ (cleanStep_ne_nil rooted out p h)

theorem clean_ne_nil (s : Str) : clean s ≠ [] := by
  unfold clean
  cases hp : cleanParts (decide (s.head? = some '/')) (splitOnSlash s) with
  | nil => by_cases hb : s.head? = some '/' <;> simp [hb]
  | cons p ps =>
    have hpne : p ≠ [] := by
      have hmem : p ∈ cleanParts (decide (s.head? = some '/')) (splitOnSlash s) := by
        rw [hp]
        exact List.mem_cons_self _ _
      unfold cleanParts at hmem
      rw [List.mem_reverse] at hmem
      exact foldl_cleanStep_ne_nil _ _ [] (by simp) p hmem
    cases ps with
    | nil => simp [joinSlash, List.append_eq_nil, hpne]
    | cons q qs => simp [joinSlash, List.append_eq_nil]

theorem joinSlash_append_last (L : List Str) (a : Str) (hL : L ≠ []) :
    joinSlash (L ++ [a]) = joinSlash L ++ '/' :: a := by
  induction L with
  | nil => exact absurd rfl hL
  | cons p L ih =>
    cases L with
    | nil => simp [joinSlash]
    | cons q L2 =>
      have h2 := ih (List.cons_ne_nil q L2)
      show p ++ '/' :: joinSlash ((q :: L2) ++ [a]) = (p ++ '/' :: joinSlash (q :: L2)) ++ '/' :: a
      rw [h2]
      simp

theorem cleanParts_cons_append (f0 : Char) (F0 nk : Str)
    (h1 : '/' ∉ nk) (h2 : nk ≠ []) (h3 : nk ≠ ['.']) (h4 : nk ≠ ['.', '.']) (R : Bool) :
    cleanParts R (splitOnSlash (f0 :: (F0 ++ '/' :: nk)))
      = (List.foldl (cleanStep R) [] (splitOnSlash (f0 :: F0))).reverse ++ [nk] := by
  have hsplit : splitOnSlash (f0 :: (F0 ++ '/' :: nk))
      = splitOnSlash (f0 :: F0) ++ [nk] := by
    have hccat : f0 :: (F0 ++ '/' :: nk) = (f0 :: F0) ++ '/' :: nk := by simp
    rw [hccat]
    unfold splitOnSlash
    rw [splitAux_append, splitAux_no_slash nk h1]
    simp
  unfold cleanParts
  rw [hsplit, List.foldl_append]
  have hstep : cleanStep R (List.foldl (cleanStep R) [] (splitOnSlash (f0 :: F0))) nk
      = nk :: List.foldl (cleanStep R) [] (splitOnSlash (f0 :: F0)) := by
    unfold cleanStep
    rw [if_neg (fun hor => hor.elim h2 h3), if_neg h4]
  simp [hstep]

theorem clean_append_common (f0 : Char) (F0 : List Char) :
    ∃ C : Str, ∀ nk : Str, '/' ∉ nk → nk ≠ [] → nk ≠ ['.'] → nk ≠ ['.', '.'] →
      clean (f0 :: (F0 ++ '/' :: nk)) = C ++ nk := by
  cases hL : (List.foldl (cleanStep (decide (some f0 = some ('/' : Char)))) []
      (splitOnSlash (f0 :: F0))).reverse with
  | nil =>
    refine ⟨if decide (some f0 = some ('/' : Char)) then ['/'] else [], ?_⟩
    intro nk h1 h2 h3 h4
    unfold clean
    simp only [List.head?_cons]
    rw [cleanParts_cons_append f0 F0 nk h1 h2 h3 h4, hL]
    simp [joinSlash]
  | cons a as =>
    refine ⟨(if decide (some f0 = some ('/' : Char)) then ['/'] else [])
        ++ joinSlash (a :: as) ++ ['/'], ?_⟩
    intro nk h1 h2 h3 h4
    unfold clean
    simp only [List.head?_cons]
    rw [cleanParts_cons_append f0 F0 nk h1 h2 h3 h4, hL, List.cons_append]
    have hj : joinSlash (a :: (as ++ [nk])) = joinSlash (a :: as) ++ '/' :: nk := by
      rw [← List.cons_append]
      exact joinSlash_append_last (a :: as) nk (List.cons_ne_nil a as)
    simp [hj]

/-! ### Helper lemmas about the filesystem and directory models -/

theorem lookupFS_setFS_self (fs : FS) (p : Str) (r : List Row) :
    lookupFS (setFS fs p r) p = some r := by
  induction fs with
  | nil => simp [setFS, lookupFS]
  | cons kv rest ih =>
    obtain ⟨q, s⟩ := kv
    by_cases h : q = p <;> simp [setFS, lookupFS, h, ih]

theorem mem_map_name_filter_iff (dir : DirM) (p : DirEnt → Bool) (e : DirEnt)
    (hnd : (dir.map (fun x => x.name)).Nodup) (he : e ∈ dir) :
    e.name ∈ (dir.filter p).map (fun x => x.name) ↔ p e = true := by
  constructor
  · intro hm
    obtain ⟨e', he', hname⟩ := List.mem_map.1 hm
    have hmem := List.mem_filter.1 he'
    have heq : e' = e := List.inj_on_of_nodup_map hnd hmem.1 he hname
    rw [← heq]
    exact hmem.2
  · intro hp
    exact List.mem_map.2 ⟨e, List.mem_filter.2 ⟨he, hp⟩, rfl⟩

theorem removeAll_filter_eq (dir : DirM) (p : DirEnt → Bool)
    (hnd : (dir.map (fun x => x.name)).Nodup) :
    removeAll dir ((dir.filter p).map (fun x => x.name))
      = dir.filter (fun e => !(p e)) := by
  unfold removeAll
  apply List.filter_congr
  intro e he
  have h := mem_map_name_filter_iff dir p e hnd he
  cases hpe : p e with
  | true => simp [h.2 hpe, hpe]
  | false =>
    have hnm : e.name ∉ (dir.filter p).map (fun x => x.name) := fun hm => by
      rw [h.1 hm] at hpe
      cases hpe
    simp [hnm, hpe]

theorem getMergedFile_header_written (b : Option BackendM) (o : OptionsM) :
    ∀ (keys : List Str) (fs : FS),
      (∀ k ∈ keys, ∃ h t, lookupFS fs (fnameOf o k) = some (h :: t)) →
      getMergedFile b o fs true keys
        = (fs, Except.ok
            ((keys.map (fun k => ((lookupFS fs (fnameOf o k)).getD []).tail)).flatten)) := by
  intro keys
  induction keys with
  | nil => intro fs _; simp [getMergedFile]
  | cons k ks ih =>
    intro fs hall
    obtain ⟨hd, tl, hk⟩ := hall k (List.mem_cons_self k ks)
    have hks : ∀ k' ∈ ks, ∃ h t, lookupFS fs (fnameOf o k') = some (h :: t) :=
      fun k' hk' => hall k' (List.mem_cons_of_mem _ hk')
    simp [getMergedFile, appendFile, getOrDownload, hk, ih fs hks]

/-! ### Claim theorems -/

/-- Claim C1: for every non-empty entry sequence appended under a fresh key
(no local file at that key's path), `Get` right after `Append` writes the
first entry's `Keys()` as the header row followed by each entry's
`Values()` row, one per entry, in input order. -/
theorem append_then_get_fresh (b : Option BackendM) (o : OptionsM) (fs : FS)
    (key : Str) (e : GoEntry) (rest : List GoEntry)
    (hfresh : lookupFS fs (fnameOf o key) = none) :
    (Get b o (Append o fs key (e :: rest)) key).2
      = Except.ok (e.keys :: (e :: rest).map (fun x => x.values)) := by
  simp [Append, hfresh, writeEntries, Get, getOrDownload, lookupFS_setFS_self]

/-- Witness for C1: a fresh key in an empty store, one appended entry. -/
theorem append_then_get_fresh_witness :
    lookupFS [] (fnameOf oS ['k']) = none
    ∧ (Get none oS (Append oS [] ['k'] [eS]) ['k']).2
        = Except.ok [["foo", "bar"], ["1", "1b"]] :=
  ⟨rfl, append_then_get_fresh none oS [] ['k'] eS [] rfl⟩

/-- Claim C4 (code bug): for a key with no local file and a backend whose
`Import` reports not-found via an `os.IsNotExist` error — the condition
`attemptDownload` itself tests for — the empty file is indeed removed, but
`Get` returns that import error verbatim, never `ErrEntryNotFound`.
(And under the alternative convention of the backend returning
`ErrEntryNotFound` itself, the error matches the claim but the just-created
empty local file is left behind.) -/
theorem get_backend_not_found_divergence :
    (Get (some impNotFound) oS [] ['k']).2 = Except.error GoErr.fsNotExist
    ∧ GoErr.fsNotExist ≠ GoErr.entryNotFound
    ∧ lookupFS (Get (some impNotFound) oS [] ['k']).1 (fnameOf oS ['k']) = none
    ∧ (Get (some impENF) oS [] ['k']).2 = Except.error GoErr.entryNotFound
    ∧ lookupFS (Get (some impENF) oS [] ['k']).1 (fnameOf oS ['k']) = some [] :=
  ⟨rfl, by decide, rfl, rfl, rfl⟩

/-- Claim C5 (code bug): a key absent locally whose download fails with the
backend's `os.IsNotExist` not-found error aborts the whole `GetMerged` with
that error instead of being silently skipped; the "no backend configured"
skip does work, as does the skip when the backend returns the literal
`ErrEntryNotFound`. -/
theorem getmerged_not_found_divergence :
    (GetMerged (some impNotFound) oS [] [['k']]).2 = Except.error GoErr.fsNotExist
    ∧ GoErr.fsNotExist ≠ GoErr.entryNotFound
    ∧ (GetMerged none oS [] [['k']]).2 = Except.ok []
    ∧ (GetMerged (some impENF) oS [] [['k']]).2 = Except.ok [] :=
  ⟨rfl, by decide, rfl, rfl⟩

/-- Claim C7: while the purge single-flight lock is held a second `purge()`
returns `ErrPurgeIsActive` with the state (directory, uploads) untouched;
symmetrically `backup()` returns `ErrExportIsActive` while the export lock
is held, performing no exports. -/
theorem purge_backup_single_flight (hasB : Bool) (now : Int) (mon : ExpiryM)
    (st : JobSt) :
    (st.pmuxHeld = true → purge mon st = (some GoErr.purgeActive, st))
    ∧ (st.emuxHeld = true → backup hasB now st = (some GoErr.exportActive, st)) := by
  constructor <;> intro h <;> simp [purge, backup, h]

/-- Witness for C7: both locks held over a directory holding an expired
file; neither job touches the state. -/
theorem purge_backup_single_flight_witness :
    stS.pmuxHeld = true ∧ stS.emuxHeld = true
    ∧ purge (basicExpiryMonitor 1 100) stS = (some GoErr.purgeActive, stS)
    ∧ backup true 0 stS = (some GoErr.exportActive, stS) :=
  ⟨rfl, rfl, (purge_backup_single_flight true 0 (basicExpiryMonitor 1 100) stS).1 rfl,
    (purge_backup_single_flight true 0 (basicExpiryMonitor 1 100) stS).2 rfl⟩

/-- Claim C8 (code bug): `scan`'s `select` on `ctx.Done()` has an empty
case body and no return, so after cancellation the loop still dispatches
`go fn()` on every tick — whichever select case fires — instead of
stopping: with the context cancelled from the start, three ticker firings
dispatch three job invocations. -/
theorem scan_dispatches_after_cancel :
    scanTick true SelectPick.doneCase = true
    ∧ scanTick true SelectPick.defaultCase = true
    ∧ scanDispatchCount 0 3 (fun _ => SelectPick.doneCase) = 3 :=
  ⟨rfl, rfl, by decide⟩

/-- Claim C10: deleting a key with no local file propagates the
filesystem's not-exist error — a non-nil error distinct from
`ErrEntryNotFound` — rather than succeeding as a no-op. -/
theorem delete_missing_errors (o : OptionsM) (fs : FS) (key : Str)
    (h : lookupFS fs (fnameOf o key) = none) :
    Delete o fs key = Except.error GoErr.fsNotExist
    ∧ GoErr.fsNotExist ≠ GoErr.entryNotFound := by
  refine ⟨?_, by decide⟩
  simp [Delete, osRemove, h]

/-- Witness for C10: deleting from an empty store errors. -/
theorem delete_missing_errors_witness :
    lookupFS [] (fnameOf oS ['k']) = none
    ∧ Delete oS [] ['k'] = Except.error GoErr.fsNotExist :=
  ⟨rfl, (delete_missing_errors oS [] ['k'] rfl).1⟩

/-- Counterexample to claim C9 as stated: two distinct keys — one of them
containing a path separator — whose resolved file paths coincide after
`path.Join`'s cleaning (`"x/../N.a"` and `"a"` both resolve to
`d/N/N.a.csv`). -/
theorem getFilename_collision :
    (['x', '/', '.', '.', '/', 'N', '.', 'a'] : Str) ≠ ['a']
    ∧ fnameOf oS ['x', '/', '.', '.', '/', 'N', '.', 'a'] = fnameOf oS ['a'] :=
  ⟨by decide, by decide⟩

/-- Claim C2: when every requested key resolves to an existing local file
holding one header row plus data rows, `GetMerged` writes the first key's
file whole (its header row, once) followed by each subsequent key's rows
with the header line skipped, in the given key order; with no keys it
writes nothing and reports no error. -/
theorem getMerged_all_local (b : Option BackendM) (o : OptionsM) (fs : FS)
    (keys : List Str)
    (hall : ∀ k ∈ keys, ∃ h t, lookupFS fs (fnameOf o k) = some (h :: t)) :
    (GetMerged b o fs keys).2
      = Except.ok
          (match keys with
           | [] => []
           | k :: ks =>
             ((lookupFS fs (fnameOf o k)).getD [])
               ++ (ks.map (fun k2 => ((lookupFS fs (fnameOf o k2)).getD []).tail)).flatten) := by
  cases keys with
  | nil => rfl
  | cons k ks =>
    obtain ⟨hd, tl, hk⟩ := hall k (List.mem_cons_self k ks)
    have hks : ∀ k' ∈ ks, ∃ h t, lookupFS fs (fnameOf o k') = some (h :: t) :=
      fun k' hk' => hall k' (List.mem_cons_of_mem _ hk')
    simp [GetMerged, getMergedFile, appendFile, getOrDownload, hk,
      getMergedFile_header_written b o ks fs hks]

/-- Witness for C2: two local keys, each a header plus one data row. -/
theorem getMerged_all_local_witness :
    (∀ k ∈ ([['a'], ['b']] : List Str), ∃ h t, lookupFS fsS (fnameOf oS k) = some (h :: t))
    ∧ (GetMerged none oS fsS [['a'], ['b']]).2
        = Except.ok [["h1", "h2"], ["a1", "a2"], ["b1", "b2"]] := by
  have hall : ∀ k ∈ ([['a'], ['b']] : List Str),
      ∃ h t, lookupFS fsS (fnameOf oS k) = some (h :: t) := by
    intro k hk
    rcases List.mem_cons.1 hk with rfl | hk2
    · exact ⟨["h1", "h2"], [["a1", "a2"]], rfl⟩
    · rcases List.mem_cons.1 hk2 with rfl | hk3
      · exact ⟨["h1", "h2"], [["b1", "b2"]], rfl⟩
      · cases hk3
  exact ⟨hall, getMerged_all_local none oS fsS [['a'], ['b']] hall⟩

/-- Claim C3: with the purge lock free, `purge()` removes exactly the
`.csv` files (the store's local files) that the configured expiry
predicate classifies as expired and leaves everything else in place; the
default predicate expires a file iff `TTL > 0` and `now - mtime >= TTL`,
and with `FileTTL == 0` a purge removes nothing regardless of file age. -/
theorem purge_removes_exactly_expired (mon : ExpiryM) (ttl now : Int) (st : JobSt)
    (hlock : st.pmuxHeld = false)
    (hnd : (st.dir.map (fun x => x.name)).Nodup)
    (httl : 0 ≤ ttl) :
    (purge mon st).2.dir
        = st.dir.filter (fun e => !(isCsv e.name && mon e.name e.mtime))
    ∧ (∀ nm mt, basicExpiryMonitor ttl now nm mt = true ↔ 0 < ttl ∧ ttl ≤ now - mt)
    ∧ (purge (basicExpiryMonitor 0 now) st).2.dir = st.dir := by
  refine ⟨?_, ?_, ?_⟩
  · simp only [purge, hlock, Bool.false_eq_true, if_false, getExpired]
    exact removeAll_filter_eq st.dir (fun e => isCsv e.name && mon e.name e.mtime) hnd
  · intro nm mt
    unfold basicExpiryMonitor isExpiredBasic
    by_cases h0 : ttl = 0
    · simp [h0]
    · rw [if_neg h0]
      simp only [decide_eq_true_eq]
      constructor
      · intro h
        exact ⟨lt_of_le_of_ne httl (Ne.symm h0), h⟩
      · exact And.right
  · simp [purge, hlock, getExpired, basicExpiryMonitor, isExpiredBasic, removeAll]

/-- Witness for C3: TTL 10 at time 95; the file modified at 0 is purged,
the file modified at 90 survives. -/
theorem purge_removes_exactly_expired_witness :
    stP.pmuxHeld = false
    ∧ (stP.dir.map (fun x => x.name)).Nodup
    ∧ (0 : Int) ≤ 10
    ∧ (purge (basicExpiryMonitor 10 95) stP).2.dir = [⟨['b', '.', 'c', 's', 'v'], 90⟩] := by
  refine ⟨rfl, by decide, by decide, ?_⟩
  have h := purge_removes_exactly_expired (basicExpiryMonitor 10 95) 10 95 stP rfl
    (by decide) (by decide)
  rw [h.1]
  decide

/-- Claim C6: a key with a local `.csv` file is listed by `getExportable()`
iff its export marker is absent or the marker's mtime is not after (is at
most) the file's mtime; in particular a freshly exported file (marker
strictly newer) stays excluded until the file's mtime catches up with the
marker's. -/
theorem getExportable_iff_marker (dir : DirM) (e : DirEnt)
    (hnd : (dir.map (fun x => x.name)).Nodup)
    (he : e ∈ dir) (hcsv : isCsv e.name = true) (hmt : 0 ≤ e.mtime) :
    e.name ∈ getExportable dir
      ↔ (lookupDir dir (markerName e.name) = none
          ∨ ∃ m, lookupDir dir (markerName e.name) = some m ∧ m.mtime ≤ e.mtime) := by
  unfold getExportable
  rw [mem_map_name_filter_iff dir _ e hnd he]
  unfold getLastExported
  cases hm : lookupDir dir (markerName e.name) with
  | none =>
    simp [hcsv, hm]
    omega
  | some m =>
    simp [hcsv, hm]

/-- Witness for C6: file `a.csv` (mtime 50) has a marker at 60 and is
excluded; file `b.csv` (mtime 70) has no marker and is included. -/
theorem getExportable_iff_marker_witness :
    (dirE.map (fun x => x.name)).Nodup
    ∧ (⟨['b', '.', 'c', 's', 'v'], 70⟩ : DirEnt) ∈ dirE
    ∧ isCsv (['b', '.', 'c', 's', 'v'] : Str) = true
    ∧ ((⟨['b', '.', 'c', 's', 'v'], 70⟩ : DirEnt).name ∈ getExportable dirE
        ↔ (lookupDir dirE (markerName (['b', '.', 'c', 's', 'v'] : Str)) = none
            ∨ ∃ m, lookupDir dirE (markerName (['b', '.', 'c', 's', 'v'] : Str)) = some m
                ∧ m.mtime ≤ (70 : Int))) :=
  ⟨by decide, by decide, by decide,
    getExportable_iff_marker dirE ⟨['b', '.', 'c', 's', 'v'], 70⟩
      (by decide) (by decide) (by decide) (by decide)⟩

/-- Claim C9, amended: within one store (non-empty directory and name, the
name free of path separators), `getFilename` is injective on keys that
contain no `'/'`; the collision exhibited by the counterexample needs a
key containing a path separator. -/
theorem getFilename_inj_no_slash (o : OptionsM) (k1 k2 : Str)
    (hdir : o.dir ≠ []) (hname : o.name ≠ []) (hns : '/' ∉ o.name)
    (h1 : '/' ∉ k1) (h2 : '/' ∉ k2) (hne : k1 ≠ k2) :
    fnameOf o k1 ≠ fnameOf o k2 := by
  intro heq
  have hlen : ∀ k : Str, 6 ≤ (entryName o k).length := by
    intro k
    have hn1 : 1 ≤ o.name.length := List.length_pos.2 hname
    simp [entryName, csvSfx]
    omega
  have hnsl : ∀ k : Str, '/' ∉ k → '/' ∉ entryName o k := by
    intro k hk hmem
    unfold entryName at hmem
    rcases List.mem_append.1 hmem with hA | hB
    · exact hns hA
    · rcases List.mem_cons.1 hB with hC | hD
      · exact absurd hC (by decide)
      · rcases List.mem_append.1 hD with hE | hF
        · exact hk hE
        · exact absurd hF (by decide)
  have hnn : ∀ k : Str, entryName o k ≠ [] := by
    intro k hc
    have h5 := hlen k
    rw [hc] at h5
    simp at h5
  have hn3 : ∀ k : Str, entryName o k ≠ ['.'] := by
    intro k hc
    have h5 := hlen k
    rw [hc] at h5
    simp at h5
  have hn4 : ∀ k : Str, entryName o k ≠ ['.', '.'] := by
    intro k hc
    have h5 := hlen k
    rw [hc] at h5
    simp at h5
  have hF : getFullPath o ≠ [] := by
    unfold getFullPath pathJoin
    cases hdd : o.dir with
    | nil => exact absurd hdd hdir
    | cons a b => exact clean_ne_nil _
  obtain ⟨f0, F0, hF0⟩ : ∃ f0 F0, getFullPath o = f0 :: F0 := by
    cases hGG : getFullPath o with
    | nil => exact absurd hGG hF
    | cons a b => exact ⟨a, b, rfl⟩
  have hclean : ∀ k : Str, fnameOf o k = clean (f0 :: (F0 ++ '/' :: entryName o k)) := by
    intro k
    unfold fnameOf getFilename
    rw [hF0]
    show clean ((f0 :: F0) ++ '/' :: entryName o k) = _
    rw [List.cons_append]
  obtain ⟨C, hC⟩ := clean_append_common f0 F0
  rw [hclean k1, hclean k2,
    hC _ (hnsl k1 h1) (hnn k1) (hn3 k1) (hn4 k1),
    hC _ (hnsl k2 h2) (hnn k2) (hn3 k2) (hn4 k2)] at heq
  have hEn : entryName o k1 = entryName o k2 := List.append_cancel_left heq
  unfold entryName at hEn
  have h6 : ('.' : Char) :: (k1 ++ csvSfx) = '.' :: (k2 ++ csvSfx) :=
    List.append_cancel_left hEn
  have h7 : k1 ++ csvSfx = k2 ++ csvSfx := by
    injection h6
  exact hne (List.append_cancel_right h7)

/-- Witness for the amended C9: two distinct separator-free keys resolve
to distinct paths. -/
theorem getFilename_inj_no_slash_witness :
    (oS.dir ≠ [] ∧ oS.name ≠ [] ∧ '/' ∉ oS.name
      ∧ '/' ∉ (['a'] : Str) ∧ '/' ∉ (['b'] : Str) ∧ (['a'] : Str) ≠ ['b'])
    ∧ fnameOf oS ['a'] ≠ fnameOf oS ['b'] :=
  ⟨by decide,
    getFilename_inj_no_slash oS ['a'] ['b'] (by decide) (by decide) (by decide)
      (by decide) (by decide) (by decide)⟩

end Csvdb
